import Mathlib

/-!
Verification development for the Movie Year Renamer script (update_year.py).

The script is shallowly embedded here: paths and filenames are lists of
characters, the filesystem is a finite set of file paths plus a finite set
of directory paths plus the optional rename log, the TMDb service is an
environment mapping a query to the (possibly failing) responses of the two
HTTP calls, and the batch rename loop and the undo engine are state-passing
functions.  Machine behaviour that the script relies on (regular
expression substitution, os.path.splitext, os.path.join, os.path.dirname,
str.split with maxsplit 1, os.rename, os.makedirs) is translated
faithfully from the Python semantics.
-/

set_option maxRecDepth 8000

abbrev Str : Type := List Char

def str (s : String) : Str := s.data

/-- Python str.strip and the regex class \s use this whitespace set. -/
def isWs (c : Char) : Bool :=
  c == ' ' || c == '\t' || c == '\n' || c == '\r' || c == '\x0b' || c == '\x0c'

def stripWs (s : Str) : Str :=
  ((s.dropWhile isWs).reverse.dropWhile isWs).reverse

def toLowerStr (s : Str) : Str := s.map Char.toLower

def lastIndexOfAux (c : Char) : Str → Nat → Option Nat
  | [], _ => none
  | x :: xs, i =>
    match lastIndexOfAux c xs (i + 1) with
    | some j => some j
    | none => if x == c then some i else none

def lastIndexOf (c : Char) (s : Str) : Option Nat := lastIndexOfAux c s 0

/-- os.path.splitext: split at the last dot after the last slash, unless all
characters between them are dots (so names of the form .bashrc keep no
extension). -/
def splitext (p : Str) : Str × Str :=
  let fIdx : Nat :=
    match lastIndexOf '/' p with
    | some i => i + 1
    | none => 0
  match lastIndexOf '.' p with
  | none => (p, [])
  | some d =>
    if fIdx ≤ d then
      if ((p.drop fIdx).take (d - fIdx)).any (fun x => x != '.') then
        (p.take d, p.drop d)
      else (p, [])
    else (p, [])

/-- os.path.join for two components on posix. -/
def joinPath (a b : Str) : Str :=
  if b.head? = some '/' then b
  else if a = [] ∨ a.getLast? = some '/' then a ++ b
  else a ++ '/' :: b

def dropTrailing (c : Char) (s : Str) : Str :=
  (s.reverse.dropWhile (fun x => x == c)).reverse

/-- os.path.dirname on posix: the text up to the last slash, with trailing
slashes stripped unless the head is all slashes. -/
def dirname (p : Str) : Str :=
  match lastIndexOf '/' p with
  | none => []
  | some i =>
    let head := p.take (i + 1)
    if head.all (fun x => x == '/') then head else dropTrailing '/' head

/-- The alternatives of JUNK_PATTERN, in the order they appear in the
pattern (the regex engine tries them left to right at each position). -/
def junkTokens : List Str :=
  [str "1080p", str "720p", str "480p", str "BluRay", str "BRRip",
   str "DVDRip", str "HDR", str "WEBRip", str "x264", str "x265",
   str "HEVC", str "AAC", str "DTS", str "H.264", str "H.265"]

/-- Case-insensitive literal match of a token at the head of the input,
returning the rest of the input after the match. -/
def matchTokenCI : Str → Str → Option Str
  | [], s => some s
  | _ :: _, [] => none
  | t :: ts, c :: cs => if t.toLower == c.toLower then matchTokenCI ts cs else none

def tryTokens : List Str → Str → Option Str
  | [], _ => none
  | t :: ts, s =>
    match matchTokenCI t s with
    | some r => some r
    | none => tryTokens ts s

/-- JUNK_PATTERN.sub on a character list, driven by a fuel argument that the
wrapper instantiates with the input length; every step consumes at least one
character, so the fuel never runs out on the wrapper's calls. -/
def junkSubAux : Nat → Str → Str
  | 0, s => s
  | _ + 1, [] => []
  | fuel + 1, c :: cs =>
    match tryTokens junkTokens (c :: cs) with
    | some rest => junkSubAux fuel rest
    | none => c :: junkSubAux fuel cs

def junkSub (s : Str) : Str := junkSubAux s.length s

def isSepChar (c : Char) : Bool := c == '.' || c == '_'

/-- The substitution of the pattern of dots and underscores, one or more
times, by a single space: the Bool flag records being inside a run that has
already produced its space. -/
def sepCollapseAux : Bool → Str → Str
  | _, [] => []
  | inRun, c :: cs =>
    if isSepChar c then
      if inRun then sepCollapseAux true cs else ' ' :: sepCollapseAux true cs
    else c :: sepCollapseAux false cs

def sepCollapse (s : Str) : Str := sepCollapseAux false s

inductive WsState where
  | outRun : WsState
  | pend : Char → WsState
  | swallowed : WsState

/-- The substitution of two-or-more whitespace characters by a single
space: a lone whitespace character is kept verbatim, a run of length at
least two becomes one space. -/
def wsCollapseAux : WsState → Str → Str
  | WsState.outRun, [] => []
  | WsState.pend w, [] => [w]
  | WsState.swallowed, [] => []
  | WsState.outRun, c :: cs =>
    if isWs c then wsCollapseAux (WsState.pend c) cs else c :: wsCollapseAux WsState.outRun cs
  | WsState.pend w, c :: cs =>
    if isWs c then ' ' :: wsCollapseAux WsState.swallowed cs
    else w :: c :: wsCollapseAux WsState.outRun cs
  | WsState.swallowed, c :: cs =>
    if isWs c then wsCollapseAux WsState.swallowed cs else c :: wsCollapseAux WsState.outRun cs

def wsCollapse (s : Str) : Str := wsCollapseAux WsState.outRun s

/-- YEAR_PATTERN matching at the head of the input: a four-digit value in
parentheses. -/
def matchYearAt : Str → Bool
  | a :: d1 :: d2 :: d3 :: d4 :: b :: _ =>
    a == '(' && d1.isDigit && d2.isDigit && d3.isDigit && d4.isDigit && b == ')'
  | _ => false

def hasYearFrom : Str → Bool
  | [] => false
  | c :: cs => matchYearAt (c :: cs) || hasYearFrom cs

/-- has_year from the script: YEAR_PATTERN.search finds the parenthesised
four-digit value anywhere in the name. -/
def has_year (s : Str) : Bool := hasYearFrom s

/-- clean_title from the script: drop the extension and strip; with
remove_junk, delete the junk tokens, strip, collapse dot and underscore
runs to spaces, and collapse repeated whitespace (note the order: the strip
happens before the separator collapsing, exactly as in the source). -/
def clean_title (filename : Str) (remove_junk : Bool) : Str :=
  let name := stripWs (splitext filename).1
  if remove_junk then
    wsCollapse (sepCollapse (stripWs (junkSub name)))
  else name

/-- The literal record separator of the log file format. -/
def sepStr : Str := str " -> "

/-- Python line.split(" -> ", 1): the text before the first occurrence of
the separator and everything after it; none when the separator does not
occur. -/
def splitOnce : Str → Option (Str × Str)
  | [] => none
  | c :: rest =>
    if sepStr.isPrefixOf (c :: rest) then some ([], (c :: rest).drop sepStr.length)
    else (splitOnce rest).map (fun pq => (c :: pq.1, pq.2))

/-- A path parses cleanly before the separator: appending the separator to
it yields the separator occurrence exactly at its end. -/
def cleanPath (o : Str) : Bool := decide (splitOnce (o ++ sepStr) = some (o, []))

/-- One entry of the TMDb search response: the identifier and the
release_date field, with the empty string standing for a missing or empty
(falsy) field. -/
structure SearchEntry where
  id : Nat
  release_date : Str
deriving DecidableEq

/-- The details response of the second TMDb call: the release_date field
and the name of the belongs_to_collection object when that object is
truthy. -/
structure Details where
  release_date : Str
  collection : Option Str
deriving DecidableEq

/-- The behaviour of the external service for one query: each of the two
HTTP calls either returns parsed JSON or raises (transport error, HTTP
error status or parse error). -/
structure TmdbEnv where
  searchResp : Except Unit (List SearchEntry)
  detailsResp : Nat → Except Unit Details

/-- The body of get_movie_data's try block: search (propagating a raise),
pick the first result with a truthy release_date, and fetch its details
(again propagating a raise). -/
def get_movie_data_body (env : TmdbEnv) : Except Unit (Option Details) :=
  match env.searchResp with
  | Except.error e => Except.error e
  | Except.ok results =>
    match results.find? (fun m => !m.release_date.isEmpty) with
    | none => Except.ok none
    | some m =>
      match env.detailsResp m.id with
      | Except.error e => Except.error e
      | Except.ok d => Except.ok (some d)

/-- get_movie_data from the script: the try block with every exception
caught and turned into None. -/
def get_movie_data (env : TmdbEnv) : Option Details :=
  match get_movie_data_body env with
  | Except.ok r => r
  | Except.error _ => none

/-- The filesystem state: the set of existing file paths, the set of
existing directory paths, and the rename log (none when the log file does
not exist, otherwise its list of lines). -/
structure FS where
  files : Finset Str
  dirs : Finset Str
  log : Option (List Str)
deriving DecidableEq

/-- A rename record: source path and destination path of one applied
rename. -/
structure Record where
  old : Str
  new : Str
deriving DecidableEq

/-- The log line written for one record. -/
def toLine (r : Record) : Str := r.old ++ sepStr ++ r.new

def existsPath (fs : FS) (p : Str) : Bool :=
  decide (p ∈ fs.files) || decide (p ∈ fs.dirs)

/-- Observable events of one batch run; lookup marks a get_movie_data call
and sleep marks time.sleep(API_DELAY). -/
inductive Event where
  | lookup : Str → Event
  | sleep : Event
  | renamed : Str → Str → Event
  | dryRun : Str → Str → Event
  | skippedExists : Str → Event
  | yearNotFound : Str → Event
deriving DecidableEq

/-- Messages printed by undo_last_batch. -/
inductive UndoMsg where
  | noLogFile : UndoMsg
  | logEmpty : UndoMsg
  | reverted : Str → Str → UndoMsg
  | revertFailed : Str → UndoMsg
  | notFound : Str → UndoMsg
  | undoComplete : UndoMsg
deriving DecidableEq

/-- The configuration of one batch run: the three interactive answers, the
root folder, and the external service behaviour per query title. -/
structure Settings where
  clean_junk : Bool
  dry_run : Bool
  sort_collections : Bool
  root_folder : Str
  env : Str → TmdbEnv

/-- VIDEO_EXTENSIONS from the script. -/
def videoExtensions : List Str :=
  [str ".mp4", str ".mkv", str ".avi", str ".mov", str ".wmv", str ".m4v", str ".webm"]

/-- One file yielded by the os.walk traversal: the directory containing it
and its base name. -/
structure Candidate where
  root : Str
  file : Str
deriving DecidableEq

def candExt (c : Candidate) : Str := toLowerStr (splitext c.file).2

def candTitle (cfg : Settings) (c : Candidate) : Str := clean_title c.file cfg.clean_junk

/-- The collection folder when sorting is on and the metadata carries a
collection, as in the script: os.path.join(ROOT_FOLDER, collection_name). -/
def targetOf (cfg : Settings) (d : Details) : Option Str :=
  if cfg.sort_collections then d.collection.map (fun cn => joinPath cfg.root_folder cn) else none

def candTarget (cfg : Settings) (c : Candidate) (d : Details) : Str :=
  (targetOf cfg d).getD c.root

/-- The os.makedirs(target_folder, exist_ok=True) effect, performed exactly
when a collection folder was selected. -/
def fsWithTarget (cfg : Settings) (fs : FS) (d : Details) : FS :=
  match targetOf cfg d with
  | some t => { fs with dirs := insert t fs.dirs }
  | none => fs

def newNameOf (cfg : Settings) (c : Candidate) (d : Details) : Str :=
  candTitle cfg c ++ str " (" ++ d.release_date.take 4 ++ str ")" ++ candExt c

def oldPathOf (c : Candidate) : Str := joinPath c.root c.file

def newPathOf (cfg : Settings) (c : Candidate) (d : Details) : Str :=
  joinPath (candTarget cfg c d) (newNameOf cfg c d)

/-- The tail of the rename loop once metadata with a release date is in
hand and the collection folder (fs1 already carries its creation) is
chosen: collision check, then dry-run report or rename-and-log, with the
sleep only on these two terminal branches, exactly as the continue
statements of the source arrange.  An os.rename of a missing source raises
out of the loop, modelled as the error case. -/
def processHit (cfg : Settings) (c : Candidate) (d : Details) (fs1 : FS)
    (recs : List Record) (evs : List Event) : Except Unit (FS × List Record × List Event) :=
  if existsPath fs1 (newPathOf cfg c d) then
    Except.ok (fs1, recs,
      evs ++ [Event.lookup (candTitle cfg c), Event.skippedExists (newPathOf cfg c d)])
  else if cfg.dry_run then
    Except.ok (fs1, recs,
      evs ++ [Event.lookup (candTitle cfg c),
        Event.dryRun (oldPathOf c) (newPathOf cfg c d), Event.sleep])
  else if oldPathOf c ∈ fs1.files then
    Except.ok ({ fs1 with
        files := insert (newPathOf cfg c d) (fs1.files.erase (oldPathOf c)),
        log := some (fs1.log.getD [] ++ [toLine { old := oldPathOf c, new := newPathOf cfg c d }]) },
      recs ++ [{ old := oldPathOf c, new := newPathOf cfg c d }],
      evs ++ [Event.lookup (candTitle cfg c),
        Event.renamed (oldPathOf c) (newPathOf cfg c d), Event.sleep])
  else Except.error ()

/-- The body of the rename loop for one file: extension filter, has_year
filter, metadata lookup, collection folder creation, then the collision
and rename handling of processHit. -/
def processFile (cfg : Settings) (st : FS × List Record × List Event) (c : Candidate) :
    Except Unit (FS × List Record × List Event) :=
  if ¬ (candExt c ∈ videoExtensions) then Except.ok st
  else if has_year c.file then Except.ok st
  else
    match get_movie_data (cfg.env (candTitle cfg c)) with
    | none =>
      Except.ok (st.1, st.2.1,
        st.2.2 ++ [Event.lookup (candTitle cfg c), Event.yearNotFound (candTitle cfg c)])
    | some d =>
      if d.release_date = [] then
        Except.ok (st.1, st.2.1,
          st.2.2 ++ [Event.lookup (candTitle cfg c), Event.yearNotFound (candTitle cfg c)])
      else processHit cfg c d (fsWithTarget cfg st.1 d) st.2.1 st.2.2

def runBatch (cfg : Settings) :
    FS × List Record × List Event → List Candidate → Except Unit (FS × List Record × List Event)
  | st, [] => Except.ok st
  | st, c :: cs =>
    match processFile cfg st c with
    | Except.error e => Except.error e
    | Except.ok st2 => runBatch cfg st2 cs

/-- rename_movies from the script, for a fixed list of walked candidates:
opening the log in append mode creates it when absent (so the log is a
list, possibly empty, from here on), then each file is processed in
order. -/
def rename_movies (cfg : Settings) (fs : FS) (cs : List Candidate) :
    Except Unit (FS × List Record × List Event) :=
  runBatch cfg ({ fs with log := some (fs.log.getD []) }, [], []) cs

/-- One iteration of the undo loop: parse the line at the first separator
occurrence (skipping lines without it), and when the destination exists
recreate the source's parent directory and move the path back, where the
try block turns a makedirs failure (a file occupies the parent path) or a
rename failure (a directory occupies the source path) into a reported,
skipped record. -/
def undoStep (st : FS × List UndoMsg) (line : Str) : FS × List UndoMsg :=
  match splitOnce line with
  | none => st
  | some (oldp, newp) =>
    if existsPath st.1 newp then
      if dirname oldp ∈ st.1.files then (st.1, st.2 ++ [UndoMsg.revertFailed newp])
      else if oldp ∈ insert (dirname oldp) st.1.dirs then
        ({ st.1 with dirs := insert (dirname oldp) st.1.dirs },
          st.2 ++ [UndoMsg.revertFailed newp])
      else if newp ∈ st.1.files then
        ({ st.1 with
            dirs := insert (dirname oldp) st.1.dirs,
            files := insert oldp (st.1.files.erase newp) },
          st.2 ++ [UndoMsg.reverted oldp newp])
      else
        ({ st.1 with dirs := insert oldp ((insert (dirname oldp) st.1.dirs).erase newp) },
          st.2 ++ [UndoMsg.reverted oldp newp])
    else (st.1, st.2 ++ [UndoMsg.notFound newp])

/-- undo_last_batch from the script: nothing to do when the log file is
absent or empty; otherwise replay the lines in reverse and remove the log
file. -/
def undo_last_batch (fs : FS) : FS × List UndoMsg :=
  match fs.log with
  | none => (fs, [UndoMsg.noLogFile])
  | some lines =>
    match lines with
    | [] => (fs, [UndoMsg.logEmpty])
    | _ :: _ =>
      let res := lines.reverse.foldl undoStep (fs, [])
      ({ res.1 with log := none }, res.2 ++ [UndoMsg.undoComplete])

/-- One undo iteration as the specification words it: if the destination
file currently exists, recreate the source's parent directory if missing
and move the file back; if it no longer exists, report and skip; a line
without the separator is ignored. -/
def undoSpecStep (st : FS × List UndoMsg) (line : Str) : FS × List UndoMsg :=
  match splitOnce line with
  | none => st
  | some (oldp, newp) =>
    if existsPath st.1 newp then
      ({ st.1 with
          dirs := insert (dirname oldp) st.1.dirs,
          files := insert oldp (st.1.files.erase newp) },
        st.2 ++ [UndoMsg.reverted oldp newp])
    else (st.1, st.2 ++ [UndoMsg.notFound newp])

/-- The undo engine as the specification words it: report on an absent or
empty log, otherwise iterate the records in reverse order and clear the
log afterwards. -/
def undo_spec (fs : FS) : FS × List UndoMsg :=
  match fs.log with
  | none => (fs, [UndoMsg.noLogFile])
  | some lines =>
    match lines with
    | [] => (fs, [UndoMsg.logEmpty])
    | _ :: _ =>
      let res := lines.reverse.foldl undoSpecStep (fs, [])
      ({ res.1 with log := none }, res.2 ++ [UndoMsg.undoComplete])

/-- The file set after applying a list of records in order (each rename
removes the source path and adds the destination path). -/
def applyFiles (F : Finset Str) (recs : List Record) : Finset Str :=
  recs.foldl (fun acc r => insert r.new (acc.erase r.old)) F

/-- A record list is a valid batch over a file set when each rename in turn
moves an existing source to a not-yet-existing destination. -/
def validSeq : Finset Str → List Record → Bool
  | _, [] => true
  | F, r :: rs =>
    decide (r.old ∈ F) && decide (r.new ∉ F) && validSeq (insert r.new (F.erase r.old)) rs

/-- Events that witness a lookup whose candidate did not reach the rename
or dry-run branch (the continue statements that skip the sleep). -/
def isBadEv : Event → Bool
  | Event.skippedExists _ => true
  | Event.yearNotFound _ => true
  | _ => false

/-- Scan for the rate-limit property: armed records a lookup not yet
followed by a sleep; a second lookup while armed violates the property. -/
def gapsOKAux : Bool → List Event → Bool
  | _, [] => true
  | armed, e :: es =>
    match e with
    | Event.lookup _ => if armed then false else gapsOKAux true es
    | Event.sleep => gapsOKAux false es
    | _ => gapsOKAux armed es

/-- Every two successive lookups in the trace have a sleep between them. -/
def gapsOK (es : List Event) : Bool := gapsOKAux false es

def armedAfter : Bool → List Event → Bool
  | a, [] => a
  | a, e :: es =>
    armedAfter (match e with | Event.lookup _ => true | Event.sleep => false | _ => a) es

instance {ε α : Type} [DecidableEq ε] [DecidableEq α] : DecidableEq (Except ε α) :=
  fun a b =>
    match a, b with
    | Except.ok x, Except.ok y =>
      if h : x = y then isTrue (by rw [h]) else isFalse (by intro hh; injection hh; contradiction)
    | Except.error x, Except.error y =>
      if h : x = y then isTrue (by rw [h]) else isFalse (by intro hh; injection hh; contradiction)
    | Except.ok _, Except.error _ => isFalse (fun h => Except.noConfusion h)
    | Except.error _, Except.ok _ => isFalse (fun h => Except.noConfusion h)

/-- An empty filesystem without a log file, used as a concrete input. -/
def fsEmpty : FS := { files := ∅, dirs := ∅, log := none }

/-- A service behaviour whose search call raises, used as a concrete
input. -/
def envErr : TmdbEnv := { searchResp := Except.error (), detailsResp := fun _ => Except.error () }

/-- A service behaviour with one dateless result before the first dated
one, used as a concrete input. -/
def envSix : TmdbEnv :=
  { searchResp := Except.ok
      [{ id := 1, release_date := str "" },
       { id := 2, release_date := str "2001-05-05" },
       { id := 3, release_date := str "1990" }],
    detailsResp := fun i =>
      if i = 2 then Except.ok { release_date := str "2001-05-05", collection := some (str "Coll") }
      else Except.error () }

/-- A service behaviour resolving every query to the year 2005 with no
collection, used as a concrete input. -/
def envW2 : TmdbEnv :=
  { searchResp := Except.ok [{ id := 5, release_date := str "2005-01-01" }],
    detailsResp := fun _ => Except.ok { release_date := str "2005-01-01", collection := none } }

def cfgW2 : Settings :=
  { clean_junk := false, dry_run := false, sort_collections := false,
    root_folder := str "/m", env := fun _ => envW2 }

/-- A filesystem already holding the destination name, used as a concrete
collision input. -/
def fsW2 : FS := { files := {str "/m/b.mkv", str "/m/b (2005).mkv"}, dirs := ∅, log := none }

def candW2 : Candidate := { root := str "/m", file := str "b.mkv" }

def dW2 : Details := { release_date := str "2005-01-01", collection := none }

/-- A service behaviour resolving every query to 1999 in the collection
Saga, used as a concrete input. -/
def envD4 : TmdbEnv :=
  { searchResp := Except.ok [{ id := 7, release_date := str "1999-01-01" }],
    detailsResp := fun _ =>
      Except.ok { release_date := str "1999-01-01", collection := some (str "Saga") } }

def cfgD4 : Settings :=
  { clean_junk := false, dry_run := true, sort_collections := true,
    root_folder := str "/m", env := fun _ => envD4 }

def fsD4 : FS := { files := {str "/m/a.mkv"}, dirs := ∅, log := none }

def candD4 : Candidate := { root := str "/m", file := str "a.mkv" }

/-- The state a dry run of cfgD4 on fsD4 produces: the collection folder
and the empty log file have appeared. -/
def outD4 : FS × List Record × List Event :=
  ({ files := {str "/m/a.mkv"}, dirs := {str "/m/Saga"}, log := some [] }, [],
   [Event.lookup (str "a"), Event.dryRun (str "/m/a.mkv") (str "/m/Saga/a (1999).mkv"),
    Event.sleep])

/-- A service behaviour with no search results, used as a concrete input
whose lookups all fail. -/
def envN8 : TmdbEnv := { searchResp := Except.ok [], detailsResp := fun _ => Except.error () }

def cfgN8 : Settings :=
  { clean_junk := false, dry_run := false, sort_collections := false,
    root_folder := str "/m", env := fun _ => envN8 }

def fsN8 : FS := { files := {str "/m/a.mkv", str "/m/b.mkv"}, dirs := ∅, log := none }

def candN8a : Candidate := { root := str "/m", file := str "a.mkv" }

def candN8b : Candidate := { root := str "/m", file := str "b.mkv" }

/-- A service behaviour resolving every query to 1999 with no collection,
used as a concrete input for one successful rename. -/
def envW1 : TmdbEnv :=
  { searchResp := Except.ok [{ id := 7, release_date := str "1999-01-01" }],
    detailsResp := fun _ => Except.ok { release_date := str "1999-01-01", collection := none } }

def cfgW1 : Settings :=
  { clean_junk := false, dry_run := false, sort_collections := false,
    root_folder := str "/m", env := fun _ => envW1 }

def fsW1 : FS := { files := {str "/m/a.mkv"}, dirs := ∅, log := none }

def candW1 : Candidate := { root := str "/m", file := str "a.mkv" }

/-- The state one successful rename of cfgW1 on fsW1 produces. -/
def outW1 : FS × List Record × List Event :=
  ({ files := {str "/m/a (1999).mkv"}, dirs := ∅,
     log := some [str "/m/a.mkv -> /m/a (1999).mkv"] },
   [{ old := str "/m/a.mkv", new := str "/m/a (1999).mkv" }],
   [Event.lookup (str "a"), Event.renamed (str "/m/a.mkv") (str "/m/a (1999).mkv"),
    Event.sleep])

/-- A filesystem whose only file carries the log separator in its name,
used as a concrete input breaking the undo parsing. -/
def fsE1 : FS := { files := {str "/m/a -> b.mkv"}, dirs := ∅, log := none }

def candE1 : Candidate := { root := str "/m", file := str "a -> b.mkv" }

/-- A filesystem holding one undo record whose destination still exists,
used as a concrete input. -/
def fs3 : FS :=
  { files := {str "/d/b.mkv"}, dirs := ∅, log := some [str "/d/a.mkv -> /d/b.mkv"] }

theorem splitOnce_nil : splitOnce [] = none := rfl

theorem splitOnce_cons (c : Char) (rest : Str) :
    splitOnce (c :: rest) =
      if sepStr.isPrefixOf (c :: rest) then some ([], (c :: rest).drop sepStr.length)
      else (splitOnce rest).map (fun pq => (c :: pq.1, pq.2)) := rfl

theorem sepStr_length : sepStr.length = 4 := by decide

theorem isPrefixOf_self_append : ∀ (a t : Str), a.isPrefixOf (a ++ t) = true := by
  intro a t
  induction a with
  | nil => simp [List.isPrefixOf]
  | cons c cs ih => simp [List.isPrefixOf, ih]

theorem isPrefixOf_append_drop : ∀ (a b : Str), a.isPrefixOf b = true → b = a ++ b.drop a.length := by
  intro a
  induction a with
  | nil => intro b _; simp
  | cons c cs ih =>
    intro b h
    cases b with
    | nil => simp [List.isPrefixOf] at h
    | cons d ds =>
      simp only [List.isPrefixOf, Bool.and_eq_true, beq_iff_eq] at h
      obtain ⟨rfl, h2⟩ := h
      simpa using ih ds h2

theorem isPrefixOf_append_of_le :
    ∀ (a x y z : Str), a.length ≤ x.length → a.isPrefixOf (x ++ y) = true →
      a.isPrefixOf (x ++ z) = true := by
  intro a
  induction a with
  | nil => intro x y z _ _; simp [List.isPrefixOf]
  | cons c cs ih =>
    intro x y z hlen h
    cases x with
    | nil => simp at hlen
    | cons d ds =>
      simp only [List.cons_append, List.isPrefixOf, Bool.and_eq_true] at h ⊢
      exact ⟨h.1, ih ds y z (by simpa using hlen) h.2⟩

theorem splitOnce_prefix_case :
    ∀ (l : Str), sepStr.isPrefixOf l = true → splitOnce l = some ([], l.drop sepStr.length) := by
  intro l h
  cases l with
  | nil => exact absurd h (by decide)
  | cons c rest => rw [splitOnce_cons, if_pos h]

theorem splitOnce_some_decomp :
    ∀ (l p q : Str), splitOnce l = some (p, q) → l = p ++ sepStr ++ q := by
  intro l
  induction l with
  | nil => intro p q h; exact Option.noConfusion h
  | cons c rest ih =>
    intro p q h
    rw [splitOnce_cons] at h
    by_cases hp : sepStr.isPrefixOf (c :: rest) = true
    · rw [if_pos hp] at h
      have h1 : ([] : Str) = p := congrArg (fun x => x.1) (Option.some.inj h)
      have h2 : (c :: rest).drop sepStr.length = q := congrArg (fun x => x.2) (Option.some.inj h)
      rw [← h1, ← h2]
      simpa using isPrefixOf_append_drop sepStr (c :: rest) hp
    · rw [if_neg hp, Option.map_eq_some'] at h
      obtain ⟨pq, hsp, hmk⟩ := h
      have h1 : c :: pq.1 = p := congrArg (fun x => x.1) hmk
      have h2 : pq.2 = q := congrArg (fun x => x.2) hmk
      have h3 := ih pq.1 pq.2 hsp
      rw [← h1, ← h2, h3]
      simp

theorem splitOnce_none_not_decomp :
    ∀ (l : Str), splitOnce l = none → ∀ (p q : Str), l ≠ p ++ sepStr ++ q := by
  intro l
  induction l with
  | nil =>
    intro _ p q heq
    have hlen := congrArg List.length heq
    simp only [List.length_nil, List.length_append, sepStr_length] at hlen
    omega
  | cons c rest ih =>
    intro h p q heq
    rw [splitOnce_cons] at h
    by_cases hp : sepStr.isPrefixOf (c :: rest) = true
    · rw [if_pos hp] at h; exact Option.noConfusion h
    · rw [if_neg hp, Option.map_eq_none'] at h
      cases p with
      | nil =>
        apply hp
        have heq2 : c :: rest = sepStr ++ q := by simpa using heq
        rw [heq2]
        exact isPrefixOf_self_append sepStr q
      | cons x p1 =>
        have h2 : rest = p1 ++ sepStr ++ q := by
          have := congrArg List.tail heq
          simpa using this
        exact ih h p1 q h2

theorem splitOnce_min :
    ∀ (l p q : Str), splitOnce l = some (p, q) →
      ∀ (p2 q2 : Str), l = p2 ++ sepStr ++ q2 → p.length ≤ p2.length := by
  intro l
  induction l with
  | nil => intro p q h; exact Option.noConfusion h
  | cons c rest ih =>
    intro p q h p2 q2 heq
    rw [splitOnce_cons] at h
    by_cases hp : sepStr.isPrefixOf (c :: rest) = true
    · rw [if_pos hp] at h
      have h1 : ([] : Str) = p := congrArg (fun x => x.1) (Option.some.inj h)
      rw [← h1]
      simp
    · rw [if_neg hp, Option.map_eq_some'] at h
      obtain ⟨pq, hsp, hmk⟩ := h
      have h1 : c :: pq.1 = p := congrArg (fun x => x.1) hmk
      cases p2 with
      | nil =>
        apply absurd _ hp
        have heq2 : c :: rest = sepStr ++ q2 := by simpa using heq
        rw [heq2]
        exact isPrefixOf_self_append sepStr q2
      | cons x p3 =>
        have h2 : rest = p3 ++ sepStr ++ q2 := by
          have := congrArg List.tail heq
          simpa using this
        have hle := ih pq.1 pq.2 hsp p3 q2 h2
        rw [← h1]
        simp only [List.length_cons]
        omega

theorem splitOnce_clean :
    ∀ (o : Str), cleanPath o = true → ∀ (n : Str), splitOnce (o ++ sepStr ++ n) = some (o, n) := by
  intro o
  induction o with
  | nil =>
    intro _ n
    simp only [List.nil_append]
    rw [splitOnce_prefix_case (sepStr ++ n) (isPrefixOf_self_append sepStr n)]
    rw [List.drop_left]
  | cons c o1 ih =>
    intro hcp n
    have hcp2 : splitOnce (c :: (o1 ++ sepStr)) = some (c :: o1, []) := by
      have h0 := of_decide_eq_true hcp
      rw [List.cons_append] at h0
      exact h0
    have hp : sepStr.isPrefixOf (c :: (o1 ++ sepStr)) = false := by
      cases hq : sepStr.isPrefixOf (c :: (o1 ++ sepStr)) with
      | false => rfl
      | true =>
        exfalso
        rw [splitOnce_cons, if_pos hq] at hcp2
        have h1 : ([] : Str) = c :: o1 := congrArg (fun x => x.1) (Option.some.inj hcp2)
        exact List.noConfusion h1
    have htail : splitOnce (o1 ++ sepStr) = some (o1, []) := by
      rw [splitOnce_cons, if_neg (by simp [hp]), Option.map_eq_some'] at hcp2
      obtain ⟨pq, hsp, hmk⟩ := hcp2
      have h0 : c :: pq.1 = c :: o1 := congrArg (fun x => x.1) hmk
      have h1 : pq.1 = o1 := (List.cons.inj h0).2
      have h2 : pq.2 = [] := congrArg (fun x => x.2) hmk
      have h3 : some pq = some (o1, ([] : Str)) := by rw [← h1, ← h2]
      exact hsp.trans h3
    have ihc : cleanPath o1 = true := decide_eq_true htail
    have hgoalp : sepStr.isPrefixOf (c :: ((o1 ++ sepStr) ++ n)) = false := by
      cases hq : sepStr.isPrefixOf (c :: ((o1 ++ sepStr) ++ n)) with
      | false => rfl
      | true =>
        exfalso
        have h4 : sepStr.length ≤ (c :: (o1 ++ sepStr)).length := by
          simp [sepStr_length]
        have h6 : sepStr.isPrefixOf ((c :: (o1 ++ sepStr)) ++ []) = true := by
          apply isPrefixOf_append_of_le sepStr (c :: (o1 ++ sepStr)) n [] h4
          rw [List.cons_append]
          exact hq
        rw [List.append_nil, hp] at h6
        exact Bool.noConfusion h6
    rw [List.cons_append, List.cons_append, splitOnce_cons,
      if_neg (by simp only [hgoalp]; exact fun h => Bool.noConfusion h)]
    rw [ih ihc n]
    rfl

theorem splitOnce_toLine (r : Record) (h : cleanPath r.old = true) :
    splitOnce (toLine r) = some (r.old, r.new) :=
  splitOnce_clean r.old h r.new

theorem find?_append_first {α : Type} (p : α → Bool) :
    ∀ (l1 : List α) (m : α) (l2 : List α), (∀ x ∈ l1, p x = false) → p m = true →
      (l1 ++ m :: l2).find? p = some m := by
  intro l1
  induction l1 with
  | nil => intro m l2 _ hm; simpa using List.find?_cons_of_pos l2 hm
  | cons a l ih =>
    intro m l2 hall hm
    rw [List.cons_append, List.find?_cons_of_neg _ (by simp [hall a (by simp)])]
    exact ih m l2 (fun x hx => hall x (by simp [hx])) hm

/-- C5 counterexample: clean_title with remove_junk on the spec's own
example does not return the claimed string Movie 2019 (the source strips
before it collapses the separator runs, so a trailing space survives). -/
theorem c5_clean_title_counterexample :
    ¬ clean_title (str "Movie.2019.1080p.BluRay.x264.mkv") true = str "Movie 2019" := by decide

/-- C5 (amended): clean_title with remove_junk strips the extension, trims,
removes the junk vocabulary case-insensitively, trims again, collapses dot
and underscore runs to single spaces and then collapses repeated
whitespace, with no final trim after the collapsing; on the spec's example
it therefore returns Movie 2019 followed by one trailing space. -/
theorem c5_clean_title_amended :
    clean_title (str "Movie.2019.1080p.BluRay.x264.mkv") true = str "Movie 2019 " := by decide

/-- C9: undo on an absent log file reports that there is no log and
returns the state unchanged, and undo on an empty log file reports that
the log is empty and returns the state unchanged (in particular the log
file is not removed and no file or directory is touched). -/
theorem c9_undo_empty_log (fs : FS) :
    (fs.log = none → undo_last_batch fs = (fs, [UndoMsg.noLogFile])) ∧
    (fs.log = some [] → undo_last_batch fs = (fs, [UndoMsg.logEmpty])) := by
  constructor
  · intro h
    simp [undo_last_batch, h]
  · intro h
    simp [undo_last_batch, h]

theorem c9_undo_empty_log_witness :
    undo_last_batch fsEmpty = (fsEmpty, [UndoMsg.noLogFile]) :=
  (c9_undo_empty_log fsEmpty).1 rfl

/-- C10: a log line splits at the first occurrence of the separator into
the source path (the text before it) and the destination path (everything
after it, further occurrences included), and a line without the separator
makes the undo iteration skip with no state change. -/
theorem c10_log_line_parsing (fs : FS) (msgs : List UndoMsg) (line : Str) :
    (splitOnce line = none ↔ ∀ (p q : Str), ¬ line = p ++ sepStr ++ q) ∧
    (∀ (pre post : Str), splitOnce line = some (pre, post) →
      line = pre ++ sepStr ++ post ∧
      ∀ (p q : Str), line = p ++ sepStr ++ q → pre.length ≤ p.length) ∧
    (splitOnce line = none → undoStep (fs, msgs) line = (fs, msgs)) := by
  refine ⟨⟨splitOnce_none_not_decomp line, ?_⟩,
    fun pre post h => ⟨splitOnce_some_decomp line pre post h, splitOnce_min line pre post h⟩,
    fun h => ?_⟩
  · intro hno
    cases hs : splitOnce line with
    | none => rfl
    | some pq =>
      exact absurd (splitOnce_some_decomp line pq.1 pq.2 hs) (hno pq.1 pq.2)
  · simp [undoStep, h]

theorem c10_log_line_parsing_witness :
    undoStep (fsEmpty, []) (str "no separator here") = (fsEmpty, []) :=
  (c10_log_line_parsing fsEmpty [] (str "no separator here")).2.2 (by decide)

/-- C6: the resolver selects the first search result whose release-date
field is non-empty, in the order the service returned them, and resolves
to NotFound when no result has one. -/
theorem c6_first_dated_result (env : TmdbEnv) (results : List SearchEntry)
    (hs : env.searchResp = Except.ok results) :
    ((∀ m ∈ results, m.release_date = []) → get_movie_data env = none) ∧
    (∀ (l1 : List SearchEntry) (m : SearchEntry) (l2 : List SearchEntry) (d : Details),
      results = l1 ++ m :: l2 → (∀ x ∈ l1, x.release_date = []) →
      ¬ m.release_date = [] → env.detailsResp m.id = Except.ok d →
      get_movie_data env = some d) := by
  constructor
  · intro hall
    have hfind : results.find? (fun m => !m.release_date.isEmpty) = none :=
      List.find?_eq_none.mpr (fun x hx => by simp [hall x hx])
    simp [get_movie_data, get_movie_data_body, hs, hfind]
  · intro l1 m l2 d hres hall hm hd
    have hm2 : m.release_date.isEmpty = false := by
      cases hrd : m.release_date with
      | nil => exact absurd hrd hm
      | cons a l => rfl
    have hfind : results.find? (fun m => !m.release_date.isEmpty) = some m := by
      rw [hres]
      refine find?_append_first _ l1 m l2 (fun x hx => by simp [hall x hx]) ?_
      simp [hm2]
    simp [get_movie_data, get_movie_data_body, hs, hfind, hd]

theorem c6_first_dated_result_witness :
    get_movie_data envSix = some { release_date := str "2001-05-05", collection := some (str "Coll") } :=
  (c6_first_dated_result envSix
      [{ id := 1, release_date := str "" },
       { id := 2, release_date := str "2001-05-05" },
       { id := 3, release_date := str "1990" }] rfl).2
    [{ id := 1, release_date := str "" }]
    { id := 2, release_date := str "2001-05-05" }
    [{ id := 3, release_date := str "1990" }]
    { release_date := str "2001-05-05", collection := some (str "Coll") }
    rfl (by decide) (by decide) rfl

/-- C7: every exception in the resolver body is caught and mapped to
NotFound, and a NotFound resolution never makes the per-file step of the
batch raise, so a resolution failure cannot abort the batch. -/
theorem c7_resolver_failures_nonfatal :
    (∀ (env : TmdbEnv) (e : Unit), get_movie_data_body env = Except.error e →
      get_movie_data env = none) ∧
    (∀ (cfg : Settings) (st : FS × List Record × List Event) (c : Candidate),
      get_movie_data (cfg.env (candTitle cfg c)) = none →
      ∀ (u : Unit), ¬ processFile cfg st c = Except.error u) := by
  constructor
  · intro env e h
    simp [get_movie_data, h]
  · intro cfg st c hnone u hc
    by_cases h1 : candExt c ∈ videoExtensions
    · by_cases h2 : has_year c.file = true
      · simp [processFile, h1, h2] at hc
      · simp [processFile, h1, h2, hnone] at hc
    · simp [processFile, h1] at hc

theorem c7_resolver_failures_nonfatal_witness :
    get_movie_data envErr = none :=
  c7_resolver_failures_nonfatal.1 envErr () rfl

theorem fsWithTarget_files (cfg : Settings) (fs : FS) (d : Details) :
    (fsWithTarget cfg fs d).files = fs.files := by
  unfold fsWithTarget
  split <;> rfl

theorem fsWithTarget_log (cfg : Settings) (fs : FS) (d : Details) :
    (fsWithTarget cfg fs d).log = fs.log := by
  unfold fsWithTarget
  split <;> rfl

theorem fsWithTarget_dirs_subset (cfg : Settings) (fs : FS) (d : Details) :
    fs.dirs ⊆ (fsWithTarget cfg fs d).dirs := by
  unfold fsWithTarget
  split
  · exact Finset.subset_insert _ _
  · exact Finset.Subset.refl _

theorem runBatch_nil (cfg : Settings) (st : FS × List Record × List Event) :
    runBatch cfg st [] = Except.ok st := rfl

theorem runBatch_cons (cfg : Settings) (st : FS × List Record × List Event)
    (c : Candidate) (cs : List Candidate) :
    runBatch cfg st (c :: cs) =
      match processFile cfg st c with
      | Except.error e => Except.error e
      | Except.ok st2 => runBatch cfg st2 cs := rfl

theorem applyFiles_nil (F : Finset Str) : applyFiles F [] = F := rfl

theorem applyFiles_cons (F : Finset Str) (r : Record) (rs : List Record) :
    applyFiles F (r :: rs) = applyFiles (insert r.new (F.erase r.old)) rs := rfl

theorem applyFiles_append (F : Finset Str) (d1 d2 : List Record) :
    applyFiles F (d1 ++ d2) = applyFiles (applyFiles F d1) d2 := by
  simp [applyFiles, List.foldl_append]

theorem existsPath_false {fs : FS} {p : Str} (h : ¬ existsPath fs p = true) :
    ¬ p ∈ fs.files ∧ ¬ p ∈ fs.dirs := by
  simp only [existsPath, Bool.or_eq_true, decide_eq_true_eq] at h
  exact not_or.mp h

theorem validSeq_append_single :
    ∀ (d1 : List Record) (F : Finset Str) (r : Record),
      validSeq F d1 = true → r.old ∈ applyFiles F d1 → ¬ r.new ∈ applyFiles F d1 →
      validSeq F (d1 ++ [r]) = true := by
  intro d1
  induction d1 with
  | nil =>
    intro F r _ h1 h2
    simp only [List.nil_append, validSeq, Bool.and_eq_true, decide_eq_true_eq]
    exact ⟨⟨h1, h2⟩, trivial⟩
  | cons a d0 ih =>
    intro F r hv h1 h2
    simp only [validSeq, Bool.and_eq_true, decide_eq_true_eq] at hv
    obtain ⟨⟨ha1, ha2⟩, hv0⟩ := hv
    rw [List.cons_append]
    simp only [validSeq, Bool.and_eq_true, decide_eq_true_eq]
    exact ⟨⟨ha1, ha2⟩, ih _ r hv0 h1 h2⟩

theorem runBatch_spec :
    ∀ (cs : List Candidate) (cfg : Settings) (fs : FS) (l : List Str)
      (recs : List Record) (evs : List Event) (out : FS × List Record × List Event),
      fs.log = some l →
      runBatch cfg (fs, recs, evs) cs = Except.ok out →
      ∃ dr : List Record,
        out.2.1 = recs ++ dr ∧
        out.1.files = applyFiles fs.files dr ∧
        out.1.log = some (l ++ dr.map toLine) ∧
        validSeq fs.files dr = true ∧
        fs.dirs ⊆ out.1.dirs ∧
        ∃ de : List Event, out.2.2 = evs ++ de := by
  intro cs
  induction cs with
  | nil =>
    intro cfg fs l recs evs out hlog hrun
    rw [runBatch_nil] at hrun
    have hout := Except.ok.inj hrun
    subst hout
    exact ⟨[], by simp, by simp [applyFiles], by simp [hlog], rfl,
      Finset.Subset.refl _, ⟨[], by simp⟩⟩
  | cons c cs ih =>
    intro cfg fs l recs evs out hlog hrun
    rw [runBatch_cons] at hrun
    cases hpc : processFile cfg (fs, recs, evs) c with
    | error e => rw [hpc] at hrun; exact Except.noConfusion hrun
    | ok st2 =>
      rw [hpc] at hrun
      unfold processFile at hpc
      split at hpc
      · -- extension not recognised: state unchanged
        have hst2 := Except.ok.inj hpc
        subst hst2
        exact ih cfg fs l recs evs out hlog hrun
      · split at hpc
        · -- has_year: state unchanged
          have hst2 := Except.ok.inj hpc
          subst hst2
          exact ih cfg fs l recs evs out hlog hrun
        · split at hpc
          · -- lookup returned none: only events grow
            have hst2 := Except.ok.inj hpc
            subst hst2
            obtain ⟨dr, hr, hf, hl, hv, hd2, de, he⟩ :=
              ih cfg fs l recs
                (evs ++ [Event.lookup (candTitle cfg c), Event.yearNotFound (candTitle cfg c)])
                out hlog hrun
            refine ⟨dr, hr, hf, hl, hv, hd2,
              [Event.lookup (candTitle cfg c), Event.yearNotFound (candTitle cfg c)] ++ de, ?_⟩
            rw [he]
            simp
          · rename_i d hgm
            split at hpc
            · -- empty release date: only events grow
              have hst2 := Except.ok.inj hpc
              subst hst2
              obtain ⟨dr, hr, hf, hl, hv, hd2, de, he⟩ :=
                ih cfg fs l recs
                  (evs ++ [Event.lookup (candTitle cfg c), Event.yearNotFound (candTitle cfg c)])
                  out hlog hrun
              refine ⟨dr, hr, hf, hl, hv, hd2,
                [Event.lookup (candTitle cfg c), Event.yearNotFound (candTitle cfg c)] ++ de, ?_⟩
              rw [he]
              simp
            · -- the processHit tail
              unfold processHit at hpc
              split at hpc
              · -- collision: dirs may grow, files and log unchanged
                have hst2 := Except.ok.inj hpc
                subst hst2
                have hlog1 : (fsWithTarget cfg fs d).log = some l := by
                  rw [fsWithTarget_log]; exact hlog
                obtain ⟨dr, hr, hf, hl, hv, hd2, de, he⟩ :=
                  ih cfg (fsWithTarget cfg fs d) l recs
                    (evs ++ [Event.lookup (candTitle cfg c), Event.skippedExists (newPathOf cfg c d)])
                    out hlog1 hrun
                rw [fsWithTarget_files] at hf hv
                refine ⟨dr, hr, hf, hl, hv,
                  Finset.Subset.trans (fsWithTarget_dirs_subset cfg fs d) hd2,
                  [Event.lookup (candTitle cfg c), Event.skippedExists (newPathOf cfg c d)] ++ de, ?_⟩
                rw [he]
                simp
              · split at hpc
                · -- dry run: dirs may grow, files and log unchanged
                  have hst2 := Except.ok.inj hpc
                  subst hst2
                  have hlog1 : (fsWithTarget cfg fs d).log = some l := by
                    rw [fsWithTarget_log]; exact hlog
                  obtain ⟨dr, hr, hf, hl, hv, hd2, de, he⟩ :=
                    ih cfg (fsWithTarget cfg fs d) l recs
                      (evs ++ [Event.lookup (candTitle cfg c),
                        Event.dryRun (oldPathOf c) (newPathOf cfg c d), Event.sleep])
                      out hlog1 hrun
                  rw [fsWithTarget_files] at hf hv
                  refine ⟨dr, hr, hf, hl, hv,
                    Finset.Subset.trans (fsWithTarget_dirs_subset cfg fs d) hd2,
                    [Event.lookup (candTitle cfg c),
                      Event.dryRun (oldPathOf c) (newPathOf cfg c d), Event.sleep] ++ de, ?_⟩
                  rw [he]
                  simp
                · split at hpc
                  · -- the rename branch
                    rename_i hnex hndry hold
                    have hst2 := Except.ok.inj hpc
                    subst hst2
                    have hlog2 :
                        (({ fsWithTarget cfg fs d with
                            files := insert (newPathOf cfg c d)
                              ((fsWithTarget cfg fs d).files.erase (oldPathOf c)),
                            log := some ((fsWithTarget cfg fs d).log.getD [] ++
                              [toLine { old := oldPathOf c, new := newPathOf cfg c d }]) } : FS)).log =
                          some (l ++ [toLine { old := oldPathOf c, new := newPathOf cfg c d }]) := by
                      simp [fsWithTarget_log, hlog]
                    obtain ⟨dr, hr, hf, hl, hv, hd2, de, he⟩ :=
                      ih cfg _ (l ++ [toLine { old := oldPathOf c, new := newPathOf cfg c d }])
                        (recs ++ [{ old := oldPathOf c, new := newPathOf cfg c d }])
                        (evs ++ [Event.lookup (candTitle cfg c),
                          Event.renamed (oldPathOf c) (newPathOf cfg c d), Event.sleep])
                        out hlog2 hrun
                    refine ⟨{ old := oldPathOf c, new := newPathOf cfg c d } :: dr,
                      ?_, ?_, ?_, ?_, ?_, ?_⟩
                    · rw [hr, List.append_assoc]
                      rfl
                    · rw [hf]
                      simp only [applyFiles_cons, fsWithTarget_files]
                    · rw [hl]
                      simp
                    · have hop : oldPathOf c ∈ fs.files := by
                        rw [← fsWithTarget_files cfg fs d]; exact hold
                      have hnp : ¬ newPathOf cfg c d ∈ fs.files := by
                        rw [← fsWithTarget_files cfg fs d]
                        exact (existsPath_false hnex).1
                      simp only [validSeq, Bool.and_eq_true, decide_eq_true_eq]
                      refine ⟨⟨hop, hnp⟩, ?_⟩
                      simpa [applyFiles_cons, fsWithTarget_files] using hv
                    · exact Finset.Subset.trans (fsWithTarget_dirs_subset cfg fs d) hd2
                    · refine ⟨[Event.lookup (candTitle cfg c),
                        Event.renamed (oldPathOf c) (newPathOf cfg c d), Event.sleep] ++ de, ?_⟩
                      rw [he]
                      simp
                  · exact Except.noConfusion hpc

/-- C2: when a file already exists at the computed destination path the
candidate is skipped: the per-file step returns with the file set and the
log unchanged and no record appended (only the collection folder creation
may have touched the directory set), so the source stays where it was;
moreover the records of any completed batch form a valid sequence over the
starting file set, so every applied rename targeted a destination that did
not exist at its moment. -/
theorem c2_collision_skip (cfg : Settings) (fs : FS) :
    (∀ (recs : List Record) (evs : List Event) (c : Candidate) (d : Details),
      candExt c ∈ videoExtensions → has_year c.file = false →
      get_movie_data (cfg.env (candTitle cfg c)) = some d → ¬ d.release_date = [] →
      existsPath (fsWithTarget cfg fs d) (newPathOf cfg c d) = true →
      processFile cfg (fs, recs, evs) c =
        Except.ok (fsWithTarget cfg fs d, recs,
          evs ++ [Event.lookup (candTitle cfg c), Event.skippedExists (newPathOf cfg c d)]) ∧
      (fsWithTarget cfg fs d).files = fs.files ∧
      (fsWithTarget cfg fs d).log = fs.log) ∧
    (∀ (cs : List Candidate) (out : FS × List Record × List Event),
      rename_movies cfg fs cs = Except.ok out → validSeq fs.files out.2.1 = true) := by
  constructor
  · intro recs evs c d hext hyear hgm hrd hex
    refine ⟨?_, fsWithTarget_files cfg fs d, fsWithTarget_log cfg fs d⟩
    simp only [processFile, processHit, hgm]
    rw [if_neg (by simp [hext]), if_neg (by simp [hyear]), if_neg hrd, if_pos hex]
  · intro cs out hrun
    obtain ⟨dr, hr, hf, hl, hv, hd2, de, he⟩ :=
      runBatch_spec cs cfg ({ fs with log := some (fs.log.getD []) }) (fs.log.getD [])
        [] [] out rfl hrun
    rw [hr]
    simpa using hv

theorem c2_collision_skip_witness :
    processFile cfgW2 (fsW2, [], []) candW2 =
      Except.ok (fsWithTarget cfgW2 fsW2 dW2, [],
        [Event.lookup (candTitle cfgW2 candW2),
         Event.skippedExists (newPathOf cfgW2 candW2 dW2)]) ∧
    (fsWithTarget cfgW2 fsW2 dW2).files = fsW2.files ∧
    (fsWithTarget cfgW2 fsW2 dW2).log = fsW2.log :=
  (c2_collision_skip cfgW2 fsW2).1 [] [] candW2 dW2 (by decide) (by decide) (by decide)
    (by decide) (by decide)

theorem processFile_dry (cfg : Settings) (st : FS × List Record × List Event) (c : Candidate)
    (st2 : FS × List Record × List Event)
    (hdry : cfg.dry_run = true) (h : processFile cfg st c = Except.ok st2) :
    st2.1.files = st.1.files ∧ st2.1.log = st.1.log ∧ st2.2.1 = st.2.1 := by
  unfold processFile at h
  split at h
  · cases Except.ok.inj h
    exact ⟨rfl, rfl, rfl⟩
  · split at h
    · cases Except.ok.inj h
      exact ⟨rfl, rfl, rfl⟩
    · split at h
      · cases Except.ok.inj h
        exact ⟨rfl, rfl, rfl⟩
      · rename_i d hgm
        split at h
        · cases Except.ok.inj h
          exact ⟨rfl, rfl, rfl⟩
        · unfold processHit at h
          split at h
          · cases Except.ok.inj h
            exact ⟨fsWithTarget_files cfg st.1 d, fsWithTarget_log cfg st.1 d, rfl⟩
          · -- split resolved the dry-run test with hdry, leaving the dry branch
            cases Except.ok.inj h
            exact ⟨fsWithTarget_files cfg st.1 d, fsWithTarget_log cfg st.1 d, rfl⟩

theorem runBatch_dry :
    ∀ (cs : List Candidate) (cfg : Settings) (st : FS × List Record × List Event)
      (out : FS × List Record × List Event),
      cfg.dry_run = true → runBatch cfg st cs = Except.ok out →
      out.1.files = st.1.files ∧ out.1.log = st.1.log ∧ out.2.1 = st.2.1 := by
  intro cs
  induction cs with
  | nil =>
    intro cfg st out _ h
    rw [runBatch_nil] at h
    cases Except.ok.inj h
    exact ⟨rfl, rfl, rfl⟩
  | cons c cs ih =>
    intro cfg st out hdry h
    rw [runBatch_cons] at h
    cases hpc : processFile cfg st c with
    | error e => rw [hpc] at h; exact Except.noConfusion h
    | ok st2 =>
      rw [hpc] at h
      obtain ⟨h1, h2, h3⟩ := processFile_dry cfg st c st2 hdry hpc
      obtain ⟨g1, g2, g3⟩ := ih cfg st2 out hdry h
      exact ⟨g1.trans h1, g2.trans h2, g3.trans h3⟩

/-- C4 counterexample: a dry run that resolves a collection both creates
the collection directory (the makedirs of line 182 runs before the dry-run
check) and creates the empty log file (the append-mode open of line 157),
so dry-run does mutate the filesystem; the claim that no directory and no
file is created is false. -/
theorem c4_dry_run_counterexample :
    (rename_movies cfgD4 fsD4 [candD4]).map
      (fun o => (decide (o.1.dirs = fsD4.dirs), decide (o.1.log = fsD4.log),
        decide (o.1.files = fsD4.files), o.2.1.length)) =
      Except.ok (false, false, true, 0) := by decide

/-- C4 (amended): a batch run in dry-run mode moves no file and appends no
record to the log, but it does open the log file in append mode (creating
an empty log file when absent) and may create collection directories. -/
theorem c4_dry_run_amended (cfg : Settings) (fs : FS) (cs : List Candidate)
    (out : FS × List Record × List Event)
    (hdry : cfg.dry_run = true) (hrun : rename_movies cfg fs cs = Except.ok out) :
    out.1.files = fs.files ∧ out.1.log = some (fs.log.getD []) ∧ out.2.1 = [] := by
  obtain ⟨h1, h2, h3⟩ :=
    runBatch_dry cs cfg ({ fs with log := some (fs.log.getD []) }, [], []) out hdry hrun
  exact ⟨h1, h2, h3⟩

theorem c4_dry_run_amended_witness :
    outD4.1.files = fsD4.files ∧ outD4.1.log = some (fsD4.log.getD []) ∧ outD4.2.1 = [] :=
  c4_dry_run_amended cfgD4 fsD4 [candD4] outD4 rfl (by decide)

theorem armedAfter_append :
    ∀ (xs ys : List Event) (a : Bool),
      armedAfter a (xs ++ ys) = armedAfter (armedAfter a xs) ys := by
  intro xs
  induction xs with
  | nil => intro ys a; rfl
  | cons e es ih => intro ys a; cases e <;> simp [armedAfter, ih]

theorem gapsOKAux_append :
    ∀ (xs ys : List Event) (a : Bool),
      gapsOKAux a (xs ++ ys) = (gapsOKAux a xs && gapsOKAux (armedAfter a xs) ys) := by
  intro xs
  induction xs with
  | nil => intro ys a; simp [gapsOKAux, armedAfter]
  | cons e es ih =>
    intro ys a
    cases e <;> cases a <;> simp [gapsOKAux, armedAfter, ih]

theorem processFile_chunk (cfg : Settings) (st : FS × List Record × List Event) (c : Candidate)
    (st2 : FS × List Record × List Event) (h : processFile cfg st c = Except.ok st2) :
    ∃ ch : List Event, st2.2.2 = st.2.2 ++ ch ∧ gapsOKAux false ch = true ∧
      (armedAfter false ch = false ∨ ∃ x, x ∈ ch ∧ isBadEv x = true) := by
  unfold processFile at h
  split at h
  · cases Except.ok.inj h
    exact ⟨[], by simp, rfl, Or.inl rfl⟩
  · split at h
    · cases Except.ok.inj h
      exact ⟨[], by simp, rfl, Or.inl rfl⟩
    · split at h
      · cases Except.ok.inj h
        exact ⟨[Event.lookup (candTitle cfg c), Event.yearNotFound (candTitle cfg c)], rfl, rfl,
          Or.inr ⟨Event.yearNotFound (candTitle cfg c), by simp, rfl⟩⟩
      · rename_i d hgm
        split at h
        · cases Except.ok.inj h
          exact ⟨[Event.lookup (candTitle cfg c), Event.yearNotFound (candTitle cfg c)], rfl, rfl,
            Or.inr ⟨Event.yearNotFound (candTitle cfg c), by simp, rfl⟩⟩
        · unfold processHit at h
          split at h
          · cases Except.ok.inj h
            exact ⟨[Event.lookup (candTitle cfg c), Event.skippedExists (newPathOf cfg c d)],
              rfl, rfl,
              Or.inr ⟨Event.skippedExists (newPathOf cfg c d), by simp, rfl⟩⟩
          · split at h
            · cases Except.ok.inj h
              exact ⟨[Event.lookup (candTitle cfg c),
                Event.dryRun (oldPathOf c) (newPathOf cfg c d), Event.sleep], rfl, rfl,
                Or.inl rfl⟩
            · split at h
              · cases Except.ok.inj h
                exact ⟨[Event.lookup (candTitle cfg c),
                  Event.renamed (oldPathOf c) (newPathOf cfg c d), Event.sleep], rfl, rfl,
                  Or.inl rfl⟩
              · exact Except.noConfusion h

theorem runBatch_evs_mono :
    ∀ (cs : List Candidate) (cfg : Settings) (st out : FS × List Record × List Event),
      runBatch cfg st cs = Except.ok out → ∃ de, out.2.2 = st.2.2 ++ de := by
  intro cs
  induction cs with
  | nil =>
    intro cfg st out h
    rw [runBatch_nil] at h
    cases Except.ok.inj h
    exact ⟨[], by simp⟩
  | cons c cs ih =>
    intro cfg st out h
    rw [runBatch_cons] at h
    cases hpc : processFile cfg st c with
    | error e => rw [hpc] at h; exact Except.noConfusion h
    | ok st2 =>
      rw [hpc] at h
      obtain ⟨ch, hch, _, _⟩ := processFile_chunk cfg st c st2 hpc
      obtain ⟨de, hde⟩ := ih cfg st2 out h
      exact ⟨ch ++ de, by rw [hde, hch, List.append_assoc]⟩

theorem runBatch_gaps :
    ∀ (cs : List Candidate) (cfg : Settings) (st out : FS × List Record × List Event),
      runBatch cfg st cs = Except.ok out →
      (∀ e ∈ out.2.2, isBadEv e = false) →
      gapsOKAux false st.2.2 = true → armedAfter false st.2.2 = false →
      gapsOKAux false out.2.2 = true := by
  intro cs
  induction cs with
  | nil =>
    intro cfg st out h _ h1 _
    rw [runBatch_nil] at h
    cases Except.ok.inj h
    exact h1
  | cons c cs ih =>
    intro cfg st out h hg h1 h2
    rw [runBatch_cons] at h
    cases hpc : processFile cfg st c with
    | error e => rw [hpc] at h; exact Except.noConfusion h
    | ok st2 =>
      rw [hpc] at h
      obtain ⟨ch, hch, hgap, hcalm⟩ := processFile_chunk cfg st c st2 hpc
      have h1a : gapsOKAux false st2.2.2 = true := by
        rw [hch, gapsOKAux_append, h1, h2, hgap]
        rfl
      have h2a : armedAfter false st2.2.2 = false := by
        rcases hcalm with hc | ⟨x, hx, hbx⟩
        · rw [hch, armedAfter_append, h2, hc]
        · exfalso
          obtain ⟨de, hde⟩ := runBatch_evs_mono cs cfg st2 out h
          have hxout : x ∈ out.2.2 := by
            rw [hde, hch]
            simp only [List.mem_append]
            exact Or.inl (Or.inr hx)
          have hbad := hg x hxout
          rw [hbx] at hbad
          exact Bool.noConfusion hbad
      exact ih cfg st2 out h hg h1a h2a

/-- C8 counterexample: two candidates whose lookups both fail to resolve
are processed with no sleep in between (the continue of the year-not-found
branch skips the sleep at the loop end), so the claim that the fixed delay
separates every two successive lookups is false. -/
theorem c8_rate_limit_counterexample :
    (rename_movies cfgN8 fsN8 [candN8a, candN8b]).map (fun o => gapsOK o.2.2) =
      Except.ok false := by decide

/-- C8 (amended): the fixed delay is slept after a lookup only when the
candidate reaches the dry-run or rename branch; a lookup that ends in a
year-not-found or collision skip is not followed by the delay, so the next
lookup can be issued immediately.  In every run none of whose lookups ends
in such a skip, any two successive lookups have a sleep between them. -/
theorem c8_rate_limit_amended (cfg : Settings) (fs : FS) (cs : List Candidate)
    (out : FS × List Record × List Event)
    (hrun : rename_movies cfg fs cs = Except.ok out)
    (hgood : ∀ e ∈ out.2.2, isBadEv e = false) :
    gapsOK out.2.2 = true :=
  runBatch_gaps cs cfg ({ fs with log := some (fs.log.getD []) }, [], []) out hrun hgood rfl rfl

theorem c8_rate_limit_amended_witness : gapsOK outW1.2.2 = true :=
  c8_rate_limit_amended cfgW1 fsW1 [candW1] outW1 (by decide) (by decide)

theorem undo_last_batch_eq (fs : FS) (x : Str) (xs : List Str) (h : fs.log = some (x :: xs)) :
    undo_last_batch fs =
      ({ ((x :: xs).reverse.foldl undoStep (fs, [])).1 with log := none },
        ((x :: xs).reverse.foldl undoStep (fs, [])).2 ++ [UndoMsg.undoComplete]) := by
  unfold undo_last_batch
  rw [h]

theorem undo_spec_eq (fs : FS) (x : Str) (xs : List Str) (h : fs.log = some (x :: xs)) :
    undo_spec fs =
      ({ ((x :: xs).reverse.foldl undoSpecStep (fs, [])).1 with log := none },
        ((x :: xs).reverse.foldl undoSpecStep (fs, [])).2 ++ [UndoMsg.undoComplete]) := by
  unfold undo_spec
  rw [h]

theorem undoFold_restores :
    ∀ (recs : List Record) (F0 Bd : Finset Str) (fs : FS) (msgs : List UndoMsg),
      validSeq F0 recs = true →
      fs.files = applyFiles F0 recs →
      fs.dirs ⊆ Bd →
      (∀ r ∈ recs, cleanPath r.old = true) →
      (∀ r ∈ recs, ¬ dirname r.old ∈ F0 ∧ (∀ r2 ∈ recs, ¬ dirname r.old = r2.new) ∧
        ¬ r.old ∈ Bd ∧ (∀ r2 ∈ recs, ¬ r.old = dirname r2.old)) →
      ((recs.map toLine).reverse.foldl undoStep (fs, msgs)).1.files = F0 ∧
      ((recs.map toLine).reverse.foldl undoStep (fs, msgs)).1.dirs ⊆
        Bd ∪ (recs.map (fun r => dirname r.old)).toFinset ∧
      ((recs.map toLine).reverse.foldl undoStep (fs, msgs)).1.log = fs.log := by
  intro recs
  induction recs with
  | nil =>
    intro F0 Bd fs msgs _ hf hd _ _
    refine ⟨?_, ?_, rfl⟩
    · simpa [applyFiles] using hf
    · simpa using hd
  | cons r rs ih =>
    intro F0 Bd fs msgs hv hf hd hcl hnc
    simp only [validSeq, Bool.and_eq_true, decide_eq_true_eq] at hv
    obtain ⟨⟨hro, hrn⟩, hv0⟩ := hv
    have hcl0 : ∀ x ∈ rs, cleanPath x.old = true := fun x hx => hcl x (by simp [hx])
    have hnc0 : ∀ x ∈ rs, ¬ dirname x.old ∈ insert r.new (F0.erase r.old) ∧
        (∀ r2 ∈ rs, ¬ dirname x.old = r2.new) ∧
        ¬ x.old ∈ Bd ∧ (∀ r2 ∈ rs, ¬ x.old = dirname r2.old) := by
      intro x hx
      obtain ⟨hA, hB, hC, hD⟩ := hnc x (by simp [hx])
      refine ⟨?_, fun r2 h2 => hB r2 (by simp [h2]), hC, fun r2 h2 => hD r2 (by simp [h2])⟩
      intro hmem
      rcases Finset.mem_insert.mp hmem with h | h
      · exact hB r (by simp) h
      · exact hA (Finset.mem_of_mem_erase h)
    obtain ⟨hRf, hRd, hRl⟩ := ih (insert r.new (F0.erase r.old)) Bd fs msgs hv0
      (by rw [hf]; rfl) hd hcl0 hnc0
    rw [List.map_cons, List.reverse_cons, List.foldl_append]
    simp only [List.foldl_cons, List.foldl_nil]
    set R := (rs.map toLine).reverse.foldl undoStep (fs, msgs) with hRdef
    have hsplit : splitOnce (toLine r) = some (r.old, r.new) :=
      splitOnce_toLine r (hcl r (by simp))
    have hnew : r.new ∈ R.1.files := by
      rw [hRf]
      exact Finset.mem_insert_self _ _
    have hexp : existsPath R.1 r.new = true := by simp [existsPath, hnew]
    have hd1 : ¬ dirname r.old ∈ R.1.files := by
      rw [hRf]
      intro hmem
      rcases Finset.mem_insert.mp hmem with h | h
      · exact (hnc r (by simp)).2.1 r (by simp) h
      · exact (hnc r (by simp)).1 (Finset.mem_of_mem_erase h)
    have hd2 : ¬ r.old ∈ insert (dirname r.old) R.1.dirs := by
      intro hmem
      rcases Finset.mem_insert.mp hmem with h | h
      · exact (hnc r (by simp)).2.2.2 r (by simp) h
      · rcases Finset.mem_union.mp (hRd h) with h2 | h2
        · exact (hnc r (by simp)).2.2.1 h2
        · rw [List.mem_toFinset] at h2
          obtain ⟨r2, hr2, heq⟩ := List.mem_map.mp h2
          exact (hnc r (by simp)).2.2.2 r2 (by simp [hr2]) heq.symm
    have hstep : undoStep R (toLine r) =
        ({ R.1 with
            dirs := insert (dirname r.old) R.1.dirs,
            files := insert r.old (R.1.files.erase r.new) },
          R.2 ++ [UndoMsg.reverted r.old r.new]) := by
      simp only [undoStep, hsplit]
      rw [if_pos hexp, if_neg hd1, if_neg hd2, if_pos hnew]
    refine ⟨?_, ?_, ?_⟩
    · rw [hstep]
      show insert r.old (R.1.files.erase r.new) = F0
      have hnotin : ¬ r.new ∈ F0.erase r.old := fun hc => hrn (Finset.mem_of_mem_erase hc)
      rw [hRf, Finset.erase_insert hnotin, Finset.insert_erase hro]
    · rw [hstep]
      show insert (dirname r.old) R.1.dirs ⊆ _
      intro x hx
      rcases Finset.mem_insert.mp hx with h | h
      · apply Finset.mem_union_right
        rw [List.mem_toFinset, h]
        exact List.mem_map.mpr ⟨r, by simp, rfl⟩
      · rcases Finset.mem_union.mp (hRd h) with h2 | h2
        · exact Finset.mem_union_left _ h2
        · apply Finset.mem_union_right
          rw [List.mem_toFinset] at h2 ⊢
          simpa using Or.inr h2
    · rw [hstep]
      exact hRl

/-- C1 counterexample: one applied and logged rename of a file whose name
contains the separator; undo then mis-parses the record at the first
separator occurrence, reports the destination as missing, restores nothing
and still removes the log, so the round-trip claim is false as stated. -/
theorem c1_round_trip_counterexample :
    (rename_movies cfgW1 fsE1 [candE1]).map
      (fun o => (o.2.1.length, decide ((undo_last_batch o.1).1.files = fsE1.files),
        decide ((undo_last_batch o.1).1.log = none))) = Except.ok (1, false, true) := by
  decide

/-- C1 (amended): starting from an absent or empty log, a completed
non-dry batch followed by undo moves every renamed file back to its exact
original absolute path (the file set returns to the starting one) and
removes the log file, provided at least one rename was recorded, every
recorded source path parses cleanly before the log separator (no " -> "
inside or straddling it), and the record paths do not collide with
existing files or directories in the ways that would make the undo loop's
makedirs or rename raise. -/
theorem c1_round_trip_amended (cfg : Settings) (fs : FS) (cs : List Candidate)
    (out : FS × List Record × List Event)
    (hlog0 : fs.log.getD [] = [])
    (hrun : rename_movies cfg fs cs = Except.ok out)
    (hne : ¬ out.2.1 = [])
    (hcl : ∀ r ∈ out.2.1, cleanPath r.old = true)
    (hnc : ∀ r ∈ out.2.1, ¬ dirname r.old ∈ fs.files ∧
      (∀ r2 ∈ out.2.1, ¬ dirname r.old = r2.new) ∧
      ¬ r.old ∈ out.1.dirs ∧ (∀ r2 ∈ out.2.1, ¬ r.old = dirname r2.old)) :
    (undo_last_batch out.1).1.files = fs.files ∧ (undo_last_batch out.1).1.log = none := by
  obtain ⟨dr, hr, hf, hl, hv, hd2, de, he⟩ :=
    runBatch_spec cs cfg ({ fs with log := some (fs.log.getD []) }) (fs.log.getD [])
      [] [] out rfl hrun
  have hdr : dr = out.2.1 := by rw [hr]; simp
  subst hdr
  rw [hlog0] at hl
  simp only [List.nil_append] at hl
  obtain ⟨r0, rt, hrt⟩ : ∃ a l, out.2.1 = a :: l := by
    cases hx : out.2.1 with
    | nil => exact absurd hx hne
    | cons a l => exact ⟨a, l, rfl⟩
  have hlines : out.1.log = some (toLine r0 :: List.map toLine rt) := by
    rw [hl, hrt]
    simp
  rw [undo_last_batch_eq out.1 (toLine r0) (List.map toLine rt) hlines]
  have hlist : toLine r0 :: List.map toLine rt = List.map toLine out.2.1 := by
    rw [hrt]
    simp
  rw [hlist]
  have hfold := undoFold_restores out.2.1 fs.files out.1.dirs out.1 [] hv hf
    (Finset.Subset.refl _) hcl hnc
  exact ⟨hfold.1, rfl⟩

theorem c1_round_trip_amended_witness :
    (undo_last_batch outW1.1).1.files = fsW1.files ∧ (undo_last_batch outW1.1).1.log = none :=
  c1_round_trip_amended cfgW1 fsW1 [candW1] outW1 rfl (by decide) (by decide) (by decide)
    (by decide)

theorem undoStep_reverted (st : FS × List UndoMsg) (line o n : Str)
    (hs : splitOnce line = some (o, n))
    (hn : n ∈ st.1.files)
    (hd1 : ¬ dirname o ∈ st.1.files)
    (hd2 : ¬ o ∈ insert (dirname o) st.1.dirs) :
    undoStep st line =
      ({ st.1 with
          dirs := insert (dirname o) st.1.dirs,
          files := insert o (st.1.files.erase n) },
        st.2 ++ [UndoMsg.reverted o n]) := by
  simp only [undoStep, hs]
  rw [if_pos (by simp [existsPath, hn] : existsPath st.1 n = true), if_neg hd1, if_neg hd2,
    if_pos hn]

theorem undoSpecStep_reverted (st : FS × List UndoMsg) (line o n : Str)
    (hs : splitOnce line = some (o, n)) (hn : n ∈ st.1.files) :
    undoSpecStep st line =
      ({ st.1 with
          dirs := insert (dirname o) st.1.dirs,
          files := insert o (st.1.files.erase n) },
        st.2 ++ [UndoMsg.reverted o n]) := by
  simp only [undoSpecStep, hs]
  rw [if_pos (by simp [existsPath, hn] : existsPath st.1 n = true)]

theorem undoStep_notFound (st : FS × List UndoMsg) (line o n : Str)
    (hs : splitOnce line = some (o, n))
    (hnn : ¬ n ∈ st.1.files) (hnd : ¬ n ∈ st.1.dirs) :
    undoStep st line = (st.1, st.2 ++ [UndoMsg.notFound n]) := by
  simp only [undoStep, hs]
  rw [if_neg (by simp [existsPath, hnn, hnd])]

theorem undoSpecStep_notFound (st : FS × List UndoMsg) (line o n : Str)
    (hs : splitOnce line = some (o, n))
    (hnn : ¬ n ∈ st.1.files) (hnd : ¬ n ∈ st.1.dirs) :
    undoSpecStep st line = (st.1, st.2 ++ [UndoMsg.notFound n]) := by
  simp only [undoSpecStep, hs]
  rw [if_neg (by simp [existsPath, hnn, hnd])]

theorem undoFold_eq_spec :
    ∀ (ls : List Str) (fs : FS) (msgs : List UndoMsg) (Bf Bd : Finset Str),
      fs.files ⊆ Bf → fs.dirs ⊆ Bd →
      (∀ line ∈ ls, ∀ o n, splitOnce line = some (o, n) →
        o ∈ Bf ∧ dirname o ∈ Bd ∧ ¬ dirname o ∈ Bf ∧ ¬ o ∈ Bd ∧ ¬ n ∈ Bd) →
      ls.foldl undoStep (fs, msgs) = ls.foldl undoSpecStep (fs, msgs) ∧
      (ls.foldl undoStep (fs, msgs)).1.files ⊆ Bf ∧
      (ls.foldl undoStep (fs, msgs)).1.dirs ⊆ Bd ∧
      (ls.foldl undoStep (fs, msgs)).1.log = fs.log := by
  intro ls
  induction ls with
  | nil =>
    intro fs msgs Bf Bd h1 h2 _
    exact ⟨rfl, h1, h2, rfl⟩
  | cons line ls ih =>
    intro fs msgs Bf Bd h1 h2 hgood
    rw [List.foldl_cons, List.foldl_cons]
    cases hs : splitOnce line with
    | none =>
      have e1 : undoStep (fs, msgs) line = (fs, msgs) := by simp [undoStep, hs]
      have e2 : undoSpecStep (fs, msgs) line = (fs, msgs) := by simp [undoSpecStep, hs]
      rw [e1, e2]
      exact ih fs msgs Bf Bd h1 h2 (fun l hl => hgood l (by simp [hl]))
    | some pq =>
      obtain ⟨o, n⟩ := pq
      obtain ⟨ho, hdo, hno1, hno2, hno3⟩ := hgood line (by simp) o n hs
      by_cases hex : n ∈ fs.files
      · have hd1 : ¬ dirname o ∈ (fs, msgs).1.files := fun hc => hno1 (h1 hc)
        have hd2 : ¬ o ∈ insert (dirname o) (fs, msgs).1.dirs := by
          intro hc
          rcases Finset.mem_insert.mp hc with hc1 | hc2
          · exact hno2 (hc1 ▸ hdo)
          · exact hno2 (h2 hc2)
        rw [undoStep_reverted (fs, msgs) line o n hs hex hd1 hd2,
          undoSpecStep_reverted (fs, msgs) line o n hs hex]
        apply ih
        · intro x hx
          rcases Finset.mem_insert.mp hx with h | h
          · exact h ▸ ho
          · exact h1 (Finset.mem_of_mem_erase h)
        · intro x hx
          rcases Finset.mem_insert.mp hx with h | h
          · exact h ▸ hdo
          · exact h2 h
        · exact fun l hl => hgood l (by simp [hl])
      · have hnd : ¬ n ∈ (fs, msgs).1.dirs := fun hc => hno3 (h2 hc)
        rw [undoStep_notFound (fs, msgs) line o n hs hex hnd,
          undoSpecStep_notFound (fs, msgs) line o n hs hex hnd]
        exact ih fs _ Bf Bd h1 h2 (fun l hl => hgood l (by simp [hl]))

/-- C3: on a present, non-empty log whose parsed records stay clear of the
per-record failure conditions, undo behaves exactly as the specification
words it: the records are replayed in reverse chronological order, each
record whose destination currently exists has the source's parent
directory recreated and the file moved back from destination to source, a
record whose destination no longer exists is reported and skipped without
stopping the remaining records, and after all records the log file is
removed. -/
theorem c3_undo_semantics (fs : FS) (lines : List Str) (Bf Bd : Finset Str)
    (hlog : fs.log = some lines) (hne : ¬ lines = [])
    (h1 : fs.files ⊆ Bf) (h2 : fs.dirs ⊆ Bd)
    (hgood : ∀ line ∈ lines, ∀ o n, splitOnce line = some (o, n) →
      o ∈ Bf ∧ dirname o ∈ Bd ∧ ¬ dirname o ∈ Bf ∧ ¬ o ∈ Bd ∧ ¬ n ∈ Bd) :
    undo_last_batch fs = undo_spec fs ∧ (undo_last_batch fs).1.log = none := by
  obtain ⟨x, xs, rfl⟩ : ∃ a l, lines = a :: l := by
    cases hx : lines with
    | nil => exact absurd hx hne
    | cons a l => exact ⟨a, l, rfl⟩
  have hfold := undoFold_eq_spec ((x :: xs).reverse) fs [] Bf Bd h1 h2
    (fun l hl o n hsp => hgood l (List.mem_reverse.mp hl) o n hsp)
  rw [undo_last_batch_eq fs x xs hlog, undo_spec_eq fs x xs hlog]
  constructor
  · rw [hfold.1]
  · rfl

theorem c3_undo_semantics_witness :
    undo_last_batch fs3 = undo_spec fs3 ∧ (undo_last_batch fs3).1.log = none :=
  c3_undo_semantics fs3 [str "/d/a.mkv -> /d/b.mkv"]
    {str "/d/a.mkv", str "/d/b.mkv"} {str "/d"}
    rfl (by decide) (by decide) (by decide)
    (by
      intro line hl o n hsp
      simp only [List.mem_singleton] at hl
      subst hl
      have hval : splitOnce (str "/d/a.mkv -> /d/b.mkv") =
          some (str "/d/a.mkv", str "/d/b.mkv") := by decide
      rw [hval] at hsp
      have e1 : str "/d/a.mkv" = o := congrArg (fun x => x.1) (Option.some.inj hsp)
      have e2 : str "/d/b.mkv" = n := congrArg (fun x => x.2) (Option.some.inj hsp)
      rw [← e1, ← e2]
      exact ⟨by decide, by decide, by decide, by decide, by decide⟩)
